import Mathlib

/-!
Verification of the network-tox diffusion-and-proximity engine.

Shallow embedding of the core numerical routines of the repository:
  - `rwr.py` (standard random walk with restart),
  - `expression_weighted_rwr.py` (expression-weighted transition matrix and RWR),
  - `shortest_path.py` and `proximity.py` (closest-distance proximity),
  - `permutation.py` (degree-matched sampling, empirical p-values),
  - `null_models.py` (binned degree-matched null model),
  - `validators.py` (network validation).

Machine floats are modelled by exact rationals; numpy/networkx library calls
(adjacency matrix, shortest-path length, multi-source Dijkstra on an
unweighted graph) are modelled by explicit executable definitions of the
quantities they compute.  Randomness (`random.choice` / `np.random.choice`)
is modelled by an explicit oracle of natural numbers choosing indices.
The transcendental `np.log1p` is an explicit function parameter (its exact
values never matter for any verified property).
-/

set_option maxHeartbeats 1000000
set_option linter.unusedVariables false

namespace NetworkTox

/-- A finite undirected graph: a node list and an edge list.  Models the
networkx graph handed to the engine; `nodes` is `list(G.nodes())` (the fixed
indexing order used to build matrices). -/
structure Graph (α : Type) where
  nodes : List α
  edges : List (α × α)

variable {α : Type} [DecidableEq α]

/-- Undirected adjacency test: an edge is stored in either orientation. -/
def adjB (G : Graph α) (u v : α) : Bool :=
  G.edges.contains (u, v) || G.edges.contains (v, u)

/-- Entry `(i, j)` of the 0/1 adjacency matrix `nx.adjacency_matrix(G, nodelist=nodes)`
cast to float (`adj.astype(float)` in `rwr.py`). Out-of-range indices give 0. -/
def adjQ (G : Graph α) (i j : Nat) : ℚ :=
  match G.nodes[i]?, G.nodes[j]? with
  | some u, some v => if adjB G u v then 1 else 0
  | _, _ => 0

/-- Column sum of the adjacency matrix: `col_sum = np.array(adj.sum(axis=0)).flatten()`
in `rwr.py` (the degree of node `j`). -/
def colSum (G : Graph α) (j : Nat) : ℚ :=
  ∑ i ∈ Finset.range G.nodes.length, adjQ G i j

/-- The standard column-normalized transition matrix built inside `run_rwr`:
`col_sum[col_sum == 0] = 1; W = A * D^-1`, so `W_ij = A_ij / col_sum_j` with
all-zero columns divided by 1. -/
def transitionMatrix (G : Graph α) (i j : Nat) : ℚ :=
  adjQ G i j / (if colSum G j = 0 then 1 else colSum G j)

/-- Model of `normalize_expression_values` from `expression_weighted_rwr.py`.
The transcendental `np.log1p` is passed in as the parameter `log1p`.
Follows the source: look up each node with default 0, optionally
log-transform, min-max scale (all 1 when there is no variance), then floor
at 0.01. -/
def normalize_expression_values (log1p : ℚ → ℚ) (expression : List (α × ℚ))
    (nodes : List α) (method : String) : List ℚ :=
  let expr_values := nodes.map (fun node => ((expression.lookup node).getD 0))
  let expr_values := if method = "log_minmax" then expr_values.map log1p else expr_values
  let min_val := expr_values.foldr min (expr_values.headD 0)
  let max_val := expr_values.foldr max (expr_values.headD 0)
  let expr_normalized :=
    if min_val < max_val then
      expr_values.map (fun x => (x - min_val) / (max_val - min_val))
    else
      List.replicate nodes.length 1
  expr_normalized.map (fun x => max x (1 / 100))

/-- Per-source expression weight used by the builder, as a total function of
the row index: entry `i` of the normalized expression vector (0 out of range). -/
def exprWeight (log1p : ℚ → ℚ) (expression : List (α × ℚ)) (nodes : List α)
    (i : Nat) : ℚ :=
  (normalize_expression_values log1p expression nodes "log_minmax").getD i 0

/-- Row-weighted adjacency `A'_ij = e_i * A_ij`
(`weighted_adj = expr_diag.dot(adj_matrix)` in the source). -/
def weightedAdj (log1p : ℚ → ℚ) (adj_matrix : Nat → Nat → ℚ)
    (expression : List (α × ℚ)) (nodes : List α) (i j : Nat) : ℚ :=
  exprWeight log1p expression nodes i * adj_matrix i j

/-- Column sum of the weighted adjacency. -/
def wColSum (log1p : ℚ → ℚ) (adj_matrix : Nat → Nat → ℚ)
    (expression : List (α × ℚ)) (nodes : List α) (j : Nat) : ℚ :=
  ∑ i ∈ Finset.range nodes.length, weightedAdj log1p adj_matrix expression nodes i j

/-- Model of `create_expression_weighted_transition_matrix`: weight rows by
source expression, then column-normalize with all-zero columns mapped to
divisor 1. -/
def create_expression_weighted_transition_matrix (log1p : ℚ → ℚ)
    (adj_matrix : Nat → Nat → ℚ) (expression : List (α × ℚ)) (nodes : List α)
    (i j : Nat) : ℚ :=
  weightedAdj log1p adj_matrix expression nodes i j /
    (if wColSum log1p adj_matrix expression nodes j = 0 then 1
     else wColSum log1p adj_matrix expression nodes j)

/-- Restart vector of `run_rwr` as a dense list over the node order: mass
`1/len(valid_seeds)` on each position holding a valid seed, 0 elsewhere
(`r[node_idx[seed]] = 1.0 / len(valid_seeds)`). -/
def restartList (nodes valid_seeds : List α) : List ℚ :=
  nodes.map (fun v => if v ∈ valid_seeds then 1 / (valid_seeds.length : ℚ) else 0)

/-- One RWR update `p_new = (1 - restart_prob) * W.dot(p) + restart_prob * r`,
on dense length-`n` vectors. -/
def rwrStep (W : Nat → Nat → ℚ) (n : Nat) (restart_prob : ℚ) (r p : List ℚ) :
    List ℚ :=
  (List.range n).map (fun i =>
    (1 - restart_prob) * (∑ j ∈ Finset.range n, W i j * p.getD j 0) +
      restart_prob * r.getD i 0)

/-- L1 difference `np.sum(np.abs(p_new - p))`. -/
def l1diffL (p q : List ℚ) : ℚ :=
  (List.zipWith (fun a b => |a - b|) p q).sum

/-- The iteration loop of `run_rwr`: perform up to `fuel` update steps,
stopping early (after assigning `p = p_new`) once the L1 difference drops
below `tol`. -/
def rwrLoop (W : Nat → Nat → ℚ) (n : Nat) (restart_prob tol : ℚ) (r : List ℚ) :
    Nat → List ℚ → List ℚ
  | 0, p => p
  | fuel + 1, p =>
    let p_new := rwrStep W n restart_prob r p
    if l1diffL p_new p < tol then p_new
    else rwrLoop W n restart_prob tol r fuel p_new

/-- Model of `run_rwr` from `rwr.py`: build `W`, filter the seeds to graph
membership, return the all-zero map when no seed survives, otherwise iterate
from the restart vector and return the node-to-score map. -/
def run_rwr (G : Graph α) (seeds : List α) (restart_prob tol : ℚ)
    (max_iter : Nat) : List (α × ℚ) :=
  if G.nodes.length = 0 then []
  else
    let nodes := G.nodes
    let W := transitionMatrix G
    let valid_seeds := seeds.filter (fun s => decide (s ∈ nodes))
    if valid_seeds.length = 0 then nodes.map (fun v => (v, 0))
    else
      let r := restartList nodes valid_seeds
      let p := rwrLoop W nodes.length restart_prob tol r max_iter r
      nodes.zip p

/-- Model of `run_expression_weighted_rwr`: identical to `run_rwr` except the
transition matrix is the expression-weighted one. -/
def run_expression_weighted_rwr (G : Graph α) (seeds : List α)
    (expression : List (α × ℚ)) (log1p : ℚ → ℚ) (restart_prob tol : ℚ)
    (max_iter : Nat) : List (α × ℚ) :=
  if G.nodes.length = 0 then []
  else
    let nodes := G.nodes
    let Wp := create_expression_weighted_transition_matrix log1p (adjQ G)
      expression nodes
    let valid_seeds := seeds.filter (fun s => decide (s ∈ nodes))
    if valid_seeds.length = 0 then nodes.map (fun v => (v, 0))
    else
      let r := restartList nodes valid_seeds
      let p := rwrLoop Wp nodes.length restart_prob tol r max_iter r
      nodes.zip p

/-- Existence of a walk of length exactly `k` from some node of `S` to `v`,
stepping along undirected edges through nodes of `G`.  The graph distance is
the least such `k`. -/
def reachN (G : Graph α) (S : List α) : Nat → α → Bool
  | 0, v => S.contains v
  | k + 1, v => G.nodes.any (fun u => adjB G u v && reachN G S k u)

/-- First natural number in `[start, start + fuel)` satisfying `p`. -/
def firstSat (p : Nat → Bool) : Nat → Nat → Option Nat
  | _, 0 => none
  | start, fuel + 1 => if p start then some start else firstSat p (start + 1) fuel

/-- Graph distance from the node set `S` to `v` (length of a shortest walk),
`none` when unreachable.  Models `nx.shortest_path_length` (singleton `S`)
and `nx.multi_source_dijkstra_path_length` (general `S`) on an unweighted
graph: a shortest walk has length at most `|nodes|`, so searching
`[0, |nodes| + 1)` is exhaustive. -/
def distFrom (G : Graph α) (S : List α) (v : α) : Option Nat :=
  firstSat (fun k => reachN G S k v) 0 (G.nodes.length + 1)

/-- Minimum of two optional distances, treating `none` as infinity. -/
def omin : Option Nat → Option Nat → Option Nat
  | none, b => b
  | some a, none => some a
  | some a, some b => some (min a b)

/-- The inner loop of `calculate_shortest_path`: running minimum over the
disease genes of the target's distance, skipping unreachable pairs
(`except nx.NetworkXNoPath: continue`); `none` plays the role of the initial
`float('inf')`. -/
def minDistLoop (G : Graph α) (t : α) (ds : List α) : Option Nat :=
  ds.foldl (fun acc d => omin acc (distFrom G [t] d)) none

/-- Model of `calculate_shortest_path` from `shortest_path.py`: filter both
sets to graph membership, return NaN (`none`) when either is empty, collect
each target's minimum finite distance to the disease genes, and return NaN
when no finite distance exists, else the mean. -/
def calculate_shortest_path (G : Graph α) (drug_targets disease_genes : List α) :
    Option ℚ :=
  let targets_in := drug_targets.filter (fun t => decide (t ∈ G.nodes))
  let disease_in := disease_genes.filter (fun d => decide (d ∈ G.nodes))
  if targets_in = [] ∨ disease_in = [] then none
  else
    let distances := targets_in.filterMap (fun t => minDistLoop G t disease_in)
    if distances = [] then none
    else some ((distances.map (fun k => (k : ℚ))).sum / (distances.length : ℚ))

/-- Model of `calculate_dc` from `proximity.py`: one multi-source distance
field from the disease module (`nx.multi_source_dijkstra_path_length`), then
look up each valid target, skipping targets absent from the field. -/
def calculate_dc (G : Graph α) (drug_targets disease_module : List α) :
    Option ℚ :=
  let valid_module := disease_module.filter (fun d => decide (d ∈ G.nodes))
  let valid_targets := drug_targets.filter (fun t => decide (t ∈ G.nodes))
  if valid_module = [] ∨ valid_targets = [] then none
  else
    let shortest_distances := valid_targets.filterMap (fun t => distFrom G valid_module t)
    if shortest_distances = [] then none
    else some ((shortest_distances.map (fun k => (k : ℚ))).sum /
      (shortest_distances.length : ℚ))

/-- Pairwise reachability of all graph nodes (the sense in which
`nx.is_connected` holds and the spec's connectivity precondition is read). -/
def isConnected (G : Graph α) : Prop :=
  ∀ v ∈ G.nodes, ∀ w ∈ G.nodes, (distFrom G [v] w).isSome = true

instance isConnectedDecidable (G : Graph α) : Decidable (isConnected G) :=
  inferInstanceAs (Decidable (∀ v ∈ G.nodes, ∀ w ∈ G.nodes,
    (distFrom G [v] w).isSome = true))

/-- Model of `validate_network` from `validators.py`: raises `ValueError`
only when the graph has no nodes; a disconnected graph merely warns (the
warning does not change the returned value and is not modelled). -/
def validate_network (G : Graph α) : Except String Bool :=
  if G.nodes.length = 0 then .error "The network is empty (contains no nodes)."
  else .ok true

/-- Result type of `calculate_empirical_p_value`: a float, `np.nan`, or a
raised `ValueError`. -/
inductive PValue
  | val : ℚ → PValue
  | nan : PValue
  | err : String → PValue
deriving DecidableEq

/-- Holds when the p-value result is a proper value in `(lo, hi]`. -/
def PValue.inRange (p : PValue) (lo hi : ℚ) : Prop :=
  match p with
  | .val q => lo < q ∧ q ≤ hi
  | _ => False

/-- Model of `calculate_empirical_p_value` from `permutation.py`, using the
`(r + 1) / (n + 1)` form; `np.sum(null >= obs)` is the count of null values
at least `obs`. -/
def calculate_empirical_p_value (observed : ℚ) (null_distribution : List ℚ)
    (tail : String) : PValue :=
  let n := null_distribution.length
  if n = 0 then .nan
  else if tail = "one_greater" then
    let r := (null_distribution.filter (fun x => decide (observed ≤ x))).length
    .val (((r : ℚ) + 1) / ((n : ℚ) + 1))
  else if tail = "one_less" then
    let r := (null_distribution.filter (fun x => decide (x ≤ observed))).length
    .val (((r : ℚ) + 1) / ((n : ℚ) + 1))
  else if tail = "two" then
    let r_greater := (null_distribution.filter (fun x => decide (observed ≤ x))).length
    let p_greater := ((r_greater : ℚ) + 1) / ((n : ℚ) + 1)
    let r_less := (null_distribution.filter (fun x => decide (x ≤ observed))).length
    let p_less := ((r_less : ℚ) + 1) / ((n : ℚ) + 1)
    .val (2 * min p_less p_greater)
  else .err tail

/-- Index-oracle model of `random.choice` / `np.random.choice`: pick the
element at the oracle-chosen index (modulo length); `none` on an empty list. -/
def pick (l : List α) (m : Nat) : Option α := l[m % l.length]?

/-- Degree of a node: `dict(G.degree())[v]`, the number of neighbors. -/
def degN (G : Graph α) (v : α) : Nat :=
  (G.nodes.filter (fun u => adjB G u v)).length

/-- Candidate pool for one target degree in `get_degree_matched_random`:
nodes within tolerance `max(1, int(deg * 0.25))` of the degree, excluding
targets and already-chosen nodes; falls back to any non-target unchosen node
when the band is empty. -/
def gdmrCandidates (G : Graph α) (targets nodes rs : List α) (deg : Nat) :
    List α :=
  let tol := max 1 (deg / 4)
  let candidates := nodes.filter (fun v =>
    decide (((degN G v : Int) - (deg : Int)).natAbs ≤ tol) &&
      decide (v ∉ targets) && decide (v ∉ rs))
  if candidates.isEmpty then
    nodes.filter (fun v => decide (v ∉ targets) && decide (v ∉ rs))
  else candidates

/-- The per-target loop of `get_degree_matched_random` from `permutation.py`:
append the oracle's choice from the candidate pool when any candidate
exists. -/
def gdmrLoop (G : Graph α) (targets nodes : List α) (oracle : Nat → Nat) :
    List Nat → List α → Nat → List α
  | [], rs, _ => rs
  | deg :: rest, rs, ctr =>
    match pick (gdmrCandidates G targets nodes rs deg) (oracle ctr) with
    | none => gdmrLoop G targets nodes oracle rest rs (ctr + 1)
    | some x => gdmrLoop G targets nodes oracle rest (rs ++ [x]) (ctr + 1)

/-- Model of `get_degree_matched_random` from `permutation.py`. -/
def get_degree_matched_random (G : Graph α) (targets : List α) (n_sample : Nat)
    (oracle : Nat → Nat) : List α :=
  let target_degrees := (targets.filter (fun t => decide (t ∈ G.nodes))).map (degN G)
  gdmrLoop G targets G.nodes oracle (target_degrees.take n_sample) [] 0

/-- Stable insertion into a degree-sorted list (ties keep original order,
matching Python's stable `sorted`). -/
def insertByDeg (key : α → Nat) (x : α) : List α → List α
  | [] => [x]
  | y :: ys => if key x ≤ key y then x :: y :: ys else y :: insertByDeg key x ys

/-- Stable sort by degree, modelling `sorted(self.nodes, key=...)`. -/
def sortByDeg (key : α → Nat) (l : List α) : List α :=
  l.foldr (insertByDeg key) []

/-- Fuelled chunking helper (fuel bounds the recursion depth). -/
def chunksOfAux (bin_size : Nat) : Nat → List α → List (List α)
  | 0, _ => []
  | _, [] => []
  | fuel + 1, x :: xs =>
    (x :: xs).take bin_size :: chunksOfAux bin_size fuel ((x :: xs).drop bin_size)

/-- Consecutive chunks of `bin_size` nodes, modelling
`for i in range(0, len(sorted_nodes), bin_size): chunk = sorted_nodes[i:i+bin_size]`. -/
def chunksOf (bin_size : Nat) (l : List α) : List (List α) :=
  chunksOfAux bin_size l.length l

/-- The `self.bins` dictionary of `NullModel._create_bins`: each node maps to
the degree-sorted chunk containing it (`none` when absent from the network). -/
def binsMap (G : Graph α) (bin_size : Nat) (node : α) : Option (List α) :=
  (chunksOf bin_size (sortByDeg (degN G) G.nodes)).find? (fun c => c.contains node)

/-- The duplicate-avoidance retry loop of `NullModel.get_degree_matched_random_set`
(`while random_partner in random_set: random_partner = random.choice(matching_bin)`),
with explicit fuel; returns the accepted partner and the advanced oracle
counter, or `none` when the fuel is exhausted (the Python loop never exits). -/
def retryChoice (bin rs : List α) (oracle : Nat → Nat) :
    Nat → Nat → Option (α × Nat)
  | 0, _ => none
  | fuel + 1, ctr =>
    match pick bin (oracle ctr) with
    | none => none
    | some partner =>
      if partner ∈ rs then retryChoice bin rs oracle fuel (ctr + 1)
      else some (partner, ctr + 1)

/-- The main loop of `NullModel.get_degree_matched_random_set`: nodes absent
from the bins fall back to a uniform choice with no duplicate check; others
draw from their bin with duplicate-avoidance retries. -/
def nmLoop (G : Graph α) (bin_size : Nat) (oracle : Nat → Nat) (fuel : Nat) :
    List α → List α → Nat → Option (List α)
  | [], rs, _ => some rs
  | node :: rest, rs, ctr =>
    match binsMap G bin_size node with
    | none =>
      match pick G.nodes (oracle ctr) with
      | none => none
      | some x => nmLoop G bin_size oracle fuel rest (rs ++ [x]) (ctr + 1)
    | some matching_bin =>
      match retryChoice matching_bin rs oracle fuel ctr with
      | none => none
      | some (partner, ctr2) =>
        nmLoop G bin_size oracle fuel rest (rs ++ [partner]) ctr2

/-- Model of `NullModel.get_degree_matched_random_set` from `null_models.py`
(with the `NullModel(G, bin_size)` binning precomputed by `binsMap`). -/
def get_degree_matched_random_set (G : Graph α) (bin_size : Nat)
    (target_list : List α) (oracle : Nat → Nat) (fuel : Nat) :
    Option (List α) :=
  nmLoop G bin_size oracle fuel target_list [] 0

/-- A single isolated node: the smallest connected graph. -/
def singletonGraph : Graph Nat := ⟨[0], []⟩

/-- Two nodes with no edges: a degenerate (edge-free) but nonempty graph. -/
def edgelessPair : Graph Nat := ⟨[0, 1], []⟩

/-- Two nodes joined by one edge. -/
def pairGraph : Graph Nat := ⟨[0, 1], [(0, 1)]⟩

/-- The 4-node cycle A-B-C-D-A. -/
def fourCycle : Graph Nat := ⟨[0, 1, 2, 3], [(0, 1), (1, 2), (2, 3), (3, 0)]⟩

/-- The path graph A-B-C-D-E. -/
def pathFive : Graph Nat := ⟨[0, 1, 2, 3, 4], [(0, 1), (1, 2), (2, 3), (3, 4)]⟩

/-- Uniform expression 1 on the 4-cycle's nodes. -/
def uniformExpr : List (Nat × ℚ) := [(0, 1), (1, 1), (2, 1), (3, 1)]

/-! ### Basic facts about the adjacency and expression weights -/

theorem adjB_comm (G : Graph α) (u v : α) : adjB G u v = adjB G v u := by
  simp [adjB, Bool.or_comm]

theorem adjQ_zero_or_one (G : Graph α) (i j : Nat) :
    adjQ G i j = 0 ∨ adjQ G i j = 1 := by
  unfold adjQ
  rcases G.nodes[i]? with _ | u <;> rcases G.nodes[j]? with _ | v <;>
    first
    | exact Or.inl rfl
    | by_cases h : adjB G u v <;> simp [h]

theorem adjQ_nonneg (G : Graph α) (i j : Nat) : 0 ≤ adjQ G i j := by
  rcases adjQ_zero_or_one G i j with h | h <;> rw [h] <;> norm_num

theorem adjQ_eq_zero_of_ge (G : Graph α) (i j : Nat)
    (h : G.nodes.length ≤ i) : adjQ G i j = 0 := by
  unfold adjQ
  rw [List.getElem?_eq_none h]

theorem colSum_nonneg (G : Graph α) (j : Nat) : 0 ≤ colSum G j :=
  Finset.sum_nonneg fun i _ => adjQ_nonneg G i j

theorem normalize_length (log1p : ℚ → ℚ) (expression : List (α × ℚ))
    (nodes : List α) (method : String) :
    (normalize_expression_values log1p expression nodes method).length = nodes.length := by
  unfold normalize_expression_values
  by_cases hm : method = "log_minmax" <;> simp [hm] <;> split <;> simp

theorem normalize_mem_floor (log1p : ℚ → ℚ) (expression : List (α × ℚ))
    (nodes : List α) (method : String) (x : ℚ)
    (hx : x ∈ normalize_expression_values log1p expression nodes method) :
    1 / 100 ≤ x := by
  unfold normalize_expression_values at hx
  simp only [List.mem_map] at hx
  obtain ⟨y, _, rfl⟩ := hx
  exact le_max_right _ _

theorem exprWeight_nonneg (log1p : ℚ → ℚ) (expression : List (α × ℚ))
    (nodes : List α) (i : Nat) : 0 ≤ exprWeight log1p expression nodes i := by
  unfold exprWeight
  rcases h : (normalize_expression_values log1p expression nodes "log_minmax")[i]? with _ | v
  · simp [List.getD, List.get?_eq_getElem?, h]
  · have hv : 1 / 100 ≤ v :=
      normalize_mem_floor _ _ _ _ _ (List.getElem?_mem h)
    simp only [List.getD, List.get?_eq_getElem?, h, Option.getD_some]
    linarith

theorem exprWeight_floor (log1p : ℚ → ℚ) (expression : List (α × ℚ))
    (nodes : List α) (i : Nat) (hi : i < nodes.length) :
    1 / 100 ≤ exprWeight log1p expression nodes i := by
  unfold exprWeight
  have hlen : i < (normalize_expression_values log1p expression nodes "log_minmax").length := by
    rw [normalize_length]; exact hi
  rw [List.getD_eq_getElem _ _ hlen]
  exact normalize_mem_floor _ _ _ _ _ (List.getElem_mem hlen)

theorem wColSum_nonneg (log1p : ℚ → ℚ) (G : Graph α) (expression : List (α × ℚ))
    (j : Nat) : 0 ≤ wColSum log1p (adjQ G) expression G.nodes j :=
  Finset.sum_nonneg fun i _ =>
    mul_nonneg (exprWeight_nonneg log1p expression G.nodes i) (adjQ_nonneg G i j)

theorem colSum_pos_of_edge (G : Graph α) (j : Nat)
    (h : ∃ i, i < G.nodes.length ∧ adjQ G i j ≠ 0) : 0 < colSum G j := by
  obtain ⟨i0, hi0, hne⟩ := h
  have h1 : adjQ G i0 j = 1 := (adjQ_zero_or_one G i0 j).resolve_left hne
  have hle : adjQ G i0 j ≤ colSum G j :=
    Finset.single_le_sum (fun i _ => adjQ_nonneg G i j) (Finset.mem_range.mpr hi0)
  rw [h1] at hle
  linarith

theorem wColSum_pos_of_edge (log1p : ℚ → ℚ) (G : Graph α)
    (expression : List (α × ℚ)) (j : Nat)
    (h : ∃ i, i < G.nodes.length ∧ adjQ G i j ≠ 0) :
    0 < wColSum log1p (adjQ G) expression G.nodes j := by
  obtain ⟨i0, hi0, hne⟩ := h
  have h1 : adjQ G i0 j = 1 := (adjQ_zero_or_one G i0 j).resolve_left hne
  have hterm : (1 : ℚ) / 100 ≤ weightedAdj log1p (adjQ G) expression G.nodes i0 j := by
    unfold weightedAdj
    rw [h1, mul_one]
    exact exprWeight_floor log1p expression G.nodes i0 hi0
  have hle : weightedAdj log1p (adjQ G) expression G.nodes i0 j ≤
      wColSum log1p (adjQ G) expression G.nodes j :=
    Finset.single_le_sum
      (fun i _ => mul_nonneg (exprWeight_nonneg log1p expression G.nodes i) (adjQ_nonneg G i j))
      (Finset.mem_range.mpr hi0)
  linarith

/-- C1. For every graph `G` and expression map, every entry of both the
standard transition matrix built inside `run_rwr` (`W = A·D⁻¹` with zero
columns divided by 1) and the expression-weighted matrix built by
`create_expression_weighted_transition_matrix` is nonnegative; every column
corresponding to a node with at least one edge sums to exactly 1 (hence
within 1e-10); and the column of an isolated (degree-0) node is all zero. -/
theorem transition_matrix_column_stochastic (G : Graph α) (log1p : ℚ → ℚ)
    (expression : List (α × ℚ)) (j : Nat) (hj : j < G.nodes.length) :
    (∀ i, 0 ≤ transitionMatrix G i j ∧
        0 ≤ create_expression_weighted_transition_matrix log1p (adjQ G) expression G.nodes i j)
    ∧ ((∃ i, i < G.nodes.length ∧ adjQ G i j ≠ 0) →
        (∑ i ∈ Finset.range G.nodes.length, transitionMatrix G i j) = 1 ∧
        (∑ i ∈ Finset.range G.nodes.length,
          create_expression_weighted_transition_matrix log1p (adjQ G) expression G.nodes i j) = 1)
    ∧ ((∀ i, i < G.nodes.length → adjQ G i j = 0) →
        ∀ i, transitionMatrix G i j = 0 ∧
          create_expression_weighted_transition_matrix log1p (adjQ G) expression G.nodes i j = 0) := by
  refine ⟨fun i => ⟨?_, ?_⟩, fun hedge => ⟨?_, ?_⟩, fun hiso i => ⟨?_, ?_⟩⟩
  · apply div_nonneg (adjQ_nonneg G i j)
    split
    · norm_num
    · exact colSum_nonneg G j
  · apply div_nonneg
      (mul_nonneg (exprWeight_nonneg log1p expression G.nodes i) (adjQ_nonneg G i j))
    split
    · norm_num
    · exact wColSum_nonneg log1p G expression j
  · have hpos := colSum_pos_of_edge G j hedge
    unfold transitionMatrix
    rw [if_neg (ne_of_gt hpos), ← Finset.sum_div]
    exact div_self (ne_of_gt hpos)
  · have hpos := wColSum_pos_of_edge log1p G expression j hedge
    unfold create_expression_weighted_transition_matrix
    rw [if_neg (ne_of_gt hpos), ← Finset.sum_div]
    exact div_self (ne_of_gt hpos)
  · have hzero : adjQ G i j = 0 := by
      by_cases hlt : i < G.nodes.length
      · exact hiso i hlt
      · exact adjQ_eq_zero_of_ge G i j (le_of_not_lt hlt)
    unfold transitionMatrix
    rw [hzero, zero_div]
  · have hzero : adjQ G i j = 0 := by
      by_cases hlt : i < G.nodes.length
      · exact hiso i hlt
      · exact adjQ_eq_zero_of_ge G i j (le_of_not_lt hlt)
    unfold create_expression_weighted_transition_matrix weightedAdj
    rw [hzero, mul_zero, zero_div]

/-- Witness for C1 on the two-node one-edge graph at column 0. -/
theorem transition_matrix_column_stochastic_witness :
    0 < pairGraph.nodes.length ∧
      (∑ i ∈ Finset.range pairGraph.nodes.length, transitionMatrix pairGraph i 0) = 1 :=
  ⟨by norm_num [pairGraph],
    ((transition_matrix_column_stochastic pairGraph id [] 0 (by norm_num [pairGraph])).2.1
      ⟨1, by norm_num [pairGraph], by decide⟩).1⟩

/-- C3. Expression weighting never adds or removes an edge cell: a cell of
the expression-weighted transition matrix is zero exactly when the
corresponding adjacency cell is zero (the 0.01 floor keeps every expression
multiplier nonzero, and column divisors are never zero). -/
theorem expression_weighting_preserves_sparsity (G : Graph α) (log1p : ℚ → ℚ)
    (expression : List (α × ℚ)) (i j : Nat) :
    create_expression_weighted_transition_matrix log1p (adjQ G) expression G.nodes i j = 0
      ↔ adjQ G i j = 0 := by
  have hden : (if wColSum log1p (adjQ G) expression G.nodes j = 0 then (1 : ℚ)
      else wColSum log1p (adjQ G) expression G.nodes j) ≠ 0 := by
    split
    · norm_num
    · assumption
  unfold create_expression_weighted_transition_matrix
  rw [div_eq_zero_iff]
  constructor
  · rintro (hw | hd)
    · unfold weightedAdj at hw
      rcases mul_eq_zero.mp hw with he | ha
      · by_contra hne
        have hi : i < G.nodes.length := by
          by_contra hge
          exact hne (adjQ_eq_zero_of_ge G i j (le_of_not_lt hge))
        have := exprWeight_floor log1p expression G.nodes i hi
        rw [he] at this
        norm_num at this
      · exact ha
    · exact absurd hd hden
  · intro ha
    left
    unfold weightedAdj
    rw [ha, mul_zero]

theorem foldr_min_replicate (d : ℚ) : ∀ m, (List.replicate m d).foldr min d = d
  | 0 => rfl
  | m + 1 => by
    rw [List.replicate_succ, List.foldr_cons, foldr_min_replicate d m, min_self]

theorem foldr_max_replicate (d : ℚ) : ∀ m, (List.replicate m d).foldr max d = d
  | 0 => rfl
  | m + 1 => by
    rw [List.replicate_succ, List.foldr_cons, foldr_max_replicate d m, max_self]

/-- When the expression map is constant on the node list, normalization takes
the no-variance branch and returns the all-ones vector. -/
theorem normalize_constant (log1p : ℚ → ℚ) (expression : List (α × ℚ))
    (nodes : List α) (c : ℚ)
    (hconst : ∀ v ∈ nodes, (expression.lookup v).getD 0 = c) :
    normalize_expression_values log1p expression nodes "log_minmax" =
      List.replicate nodes.length 1 := by
  have hmap : nodes.map (fun node => ((expression.lookup node).getD 0)) =
      List.replicate nodes.length c := by
    apply List.eq_replicate_iff.mpr
    refine ⟨by simp, ?_⟩
    intro b hb
    obtain ⟨v, hv, rfl⟩ := List.mem_map.mp hb
    exact hconst v hv
  have h1 : max (1 : ℚ) (1 / 100) = 1 := max_eq_left (by norm_num)
  unfold normalize_expression_values
  dsimp only
  rw [hmap, if_pos rfl, List.map_replicate]
  cases nodes with
  | nil => simp
  | cons x xs =>
    simp only [List.length_cons, List.replicate_succ, List.headD_cons,
      List.foldr_cons, foldr_min_replicate, foldr_max_replicate, min_self,
      max_self, lt_self_iff_false, if_false, List.map_cons,
      List.map_replicate, h1]

/-- C10. Weighting by a constant expression map is a no-op: the
expression-weighted transition matrix coincides with the standard
column-normalized one at every cell (the no-variance branch yields weight 1
everywhere, and normalization then recovers `W`). -/
theorem constant_expression_recovers_standard_matrix (G : Graph α)
    (log1p : ℚ → ℚ) (expression : List (α × ℚ)) (c : ℚ)
    (hconst : ∀ v ∈ G.nodes, (expression.lookup v).getD 0 = c) :
    ∀ i j, create_expression_weighted_transition_matrix log1p (adjQ G)
      expression G.nodes i j = transitionMatrix G i j := by
  have hw : ∀ i, exprWeight log1p expression G.nodes i =
      if i < G.nodes.length then 1 else 0 := by
    intro i
    unfold exprWeight
    rw [normalize_constant log1p expression G.nodes c hconst]
    by_cases hi : i < G.nodes.length
    · rw [if_pos hi, List.getD_eq_getElem _ _ (by simpa using hi), List.getElem_replicate]
    · rw [if_neg hi, List.getD_eq_default _ _ (by simpa using le_of_not_lt hi)]
  have hWA : ∀ i j, weightedAdj log1p (adjQ G) expression G.nodes i j = adjQ G i j := by
    intro i j
    unfold weightedAdj
    rw [hw i]
    by_cases hi : i < G.nodes.length
    · rw [if_pos hi, one_mul]
    · rw [if_neg hi, zero_mul, adjQ_eq_zero_of_ge G i j (le_of_not_lt hi)]
  have hCS : ∀ j, wColSum log1p (adjQ G) expression G.nodes j = colSum G j := by
    intro j
    unfold wColSum colSum
    exact Finset.sum_congr rfl fun i _ => hWA i j
  intro i j
  unfold create_expression_weighted_transition_matrix transitionMatrix
  rw [hWA, hCS]

/-- Witness for C10 on the 4-cycle with uniform expression 1, at cell (0,1). -/
theorem constant_expression_recovers_standard_matrix_witness :
    create_expression_weighted_transition_matrix id (adjQ fourCycle)
      uniformExpr fourCycle.nodes 0 1 = transitionMatrix fourCycle 0 1 :=
  constant_expression_recovers_standard_matrix fourCycle id uniformExpr 1
    (by decide) 0 1

/-! ### Column sums of the two transition matrices, as standalone lemmas -/

theorem transition_col_sum_one (G : Graph α) (j : Nat)
    (hedge : ∃ i, i < G.nodes.length ∧ adjQ G i j ≠ 0) :
    (∑ i ∈ Finset.range G.nodes.length, transitionMatrix G i j) = 1 := by
  have hpos := colSum_pos_of_edge G j hedge
  unfold transitionMatrix
  rw [if_neg (ne_of_gt hpos), ← Finset.sum_div]
  exact div_self (ne_of_gt hpos)

theorem wtransition_col_sum_one (log1p : ℚ → ℚ) (G : Graph α)
    (expression : List (α × ℚ)) (j : Nat)
    (hedge : ∃ i, i < G.nodes.length ∧ adjQ G i j ≠ 0) :
    (∑ i ∈ Finset.range G.nodes.length,
      create_expression_weighted_transition_matrix log1p (adjQ G) expression G.nodes i j) = 1 := by
  have hpos := wColSum_pos_of_edge log1p G expression j hedge
  unfold create_expression_weighted_transition_matrix
  rw [if_neg (ne_of_gt hpos), ← Finset.sum_div]
  exact div_self (ne_of_gt hpos)

theorem transitionMatrix_nonneg (G : Graph α) (i j : Nat) :
    0 ≤ transitionMatrix G i j := by
  apply div_nonneg (adjQ_nonneg G i j)
  split
  · norm_num
  · exact colSum_nonneg G j

theorem ewMatrix_nonneg (log1p : ℚ → ℚ) (G : Graph α)
    (expression : List (α × ℚ)) (i j : Nat) :
    0 ≤ create_expression_weighted_transition_matrix log1p (adjQ G) expression G.nodes i j := by
  apply div_nonneg
    (mul_nonneg (exprWeight_nonneg log1p expression G.nodes i) (adjQ_nonneg G i j))
  split
  · norm_num
  · exact wColSum_nonneg log1p G expression j

/-! ### The RWR iteration preserves total mass 1 and nonnegativity -/

theorem getD_sum_range (p : List ℚ) :
    (∑ i ∈ Finset.range p.length, p.getD i 0) = p.sum := by
  induction p with
  | nil => simp
  | cons x xs ih =>
    rw [List.length_cons, Finset.sum_range_succ']
    simp only [List.getD_cons_succ, List.getD_cons_zero]
    rw [ih, List.sum_cons, add_comm]

theorem rwrStep_length (W : Nat → Nat → ℚ) (n : Nat) (a : ℚ) (r p : List ℚ) :
    (rwrStep W n a r p).length = n := by
  simp [rwrStep]

theorem rwrStep_getD (W : Nat → Nat → ℚ) (n : Nat) (a : ℚ) (r p : List ℚ)
    (i : Nat) (hi : i < n) :
    (rwrStep W n a r p).getD i 0 =
      (1 - a) * (∑ j ∈ Finset.range n, W i j * p.getD j 0) + a * r.getD i 0 := by
  unfold rwrStep
  rw [List.getD_eq_getElem _ _ (by simpa using hi)]
  simp

theorem rwrStep_getD_zero (W : Nat → Nat → ℚ) (n : Nat) (a : ℚ) (r p : List ℚ)
    (i : Nat) (hi : n ≤ i) : (rwrStep W n a r p).getD i 0 = 0 := by
  apply List.getD_eq_default
  rw [rwrStep_length]
  exact hi

theorem rwrStep_sum (W : Nat → Nat → ℚ) (n : Nat) (a : ℚ) (r p : List ℚ)
    (hW : ∀ j, j < n → (∑ i ∈ Finset.range n, W i j) = 1)
    (hr : (∑ i ∈ Finset.range n, r.getD i 0) = 1)
    (hp : (∑ i ∈ Finset.range n, p.getD i 0) = 1) :
    (∑ i ∈ Finset.range n, (rwrStep W n a r p).getD i 0) = 1 := by
  have hrw : ∀ i ∈ Finset.range n, (rwrStep W n a r p).getD i 0 =
      (1 - a) * (∑ j ∈ Finset.range n, W i j * p.getD j 0) + a * r.getD i 0 :=
    fun i hi => rwrStep_getD W n a r p i (Finset.mem_range.mp hi)
  rw [Finset.sum_congr rfl hrw, Finset.sum_add_distrib, ← Finset.mul_sum,
    ← Finset.mul_sum, hr, Finset.sum_comm]
  have hinner : ∀ j ∈ Finset.range n,
      (∑ i ∈ Finset.range n, W i j * p.getD j 0) = p.getD j 0 := by
    intro j hj
    rw [← Finset.sum_mul, hW j (Finset.mem_range.mp hj), one_mul]
  rw [Finset.sum_congr rfl hinner, hp]
  ring

theorem rwrStep_nonneg (W : Nat → Nat → ℚ) (n : Nat) (a : ℚ) (r p : List ℚ)
    (hW : ∀ i j, 0 ≤ W i j) (hr : ∀ i, 0 ≤ r.getD i 0)
    (hp : ∀ i, 0 ≤ p.getD i 0) (ha0 : 0 ≤ a) (ha1 : a ≤ 1) :
    ∀ i, 0 ≤ (rwrStep W n a r p).getD i 0 := by
  intro i
  by_cases hi : i < n
  · rw [rwrStep_getD W n a r p i hi]
    have hsum : 0 ≤ ∑ j ∈ Finset.range n, W i j * p.getD j 0 :=
      Finset.sum_nonneg fun j _ => mul_nonneg (hW i j) (hp j)
    have h1 := mul_nonneg (by linarith : (0 : ℚ) ≤ 1 - a) hsum
    have h2 := mul_nonneg ha0 (hr i)
    linarith
  · rw [rwrStep_getD_zero W n a r p i (le_of_not_lt hi)]

theorem rwrLoop_inv (W : Nat → Nat → ℚ) (n : Nat) (a tol : ℚ) (r : List ℚ)
    (hW1 : ∀ j, j < n → (∑ i ∈ Finset.range n, W i j) = 1)
    (hW0 : ∀ i j, 0 ≤ W i j)
    (hr1 : (∑ i ∈ Finset.range n, r.getD i 0) = 1)
    (hr0 : ∀ i, 0 ≤ r.getD i 0) (ha0 : 0 ≤ a) (ha1 : a ≤ 1) :
    ∀ (fuel : Nat) (p : List ℚ), p.length = n →
      (∑ i ∈ Finset.range n, p.getD i 0) = 1 → (∀ i, 0 ≤ p.getD i 0) →
      (rwrLoop W n a tol r fuel p).length = n ∧
        (∑ i ∈ Finset.range n, (rwrLoop W n a tol r fuel p).getD i 0) = 1 ∧
        ∀ i, 0 ≤ (rwrLoop W n a tol r fuel p).getD i 0
  | 0, p, hlen, hsum, hnn => ⟨hlen, hsum, hnn⟩
  | fuel + 1, p, hlen, hsum, hnn => by
    rw [rwrLoop]
    have hlen2 := rwrStep_length W n a r p
    have hsum2 := rwrStep_sum W n a r p hW1 hr1 hsum
    have hnn2 := rwrStep_nonneg W n a r p hW0 hr0 hnn ha0 ha1
    split
    · exact ⟨hlen2, hsum2, hnn2⟩
    · exact rwrLoop_inv W n a tol r hW1 hW0 hr1 hr0 ha0 ha1 fuel _ hlen2 hsum2 hnn2

/-! ### The restart vector is a probability vector -/

theorem sum_map_indicator (l q : List α) (c : ℚ) :
    (l.map (fun v => if v ∈ q then c else 0)).sum =
      ((l.filter (fun v => decide (v ∈ q))).length : ℚ) * c := by
  induction l with
  | nil => simp
  | cons x xs ih =>
    by_cases hx : x ∈ q <;> simp [hx, ih] <;> push_cast <;> ring

theorem length_filter_mem (l q : List α) (hl : l.Nodup) (hq : q.Nodup)
    (hsub : ∀ x ∈ q, x ∈ l) :
    (l.filter (fun v => decide (v ∈ q))).length = q.length := by
  have hperm : (l.filter (fun v => decide (v ∈ q))).Perm q := by
    apply List.perm_of_nodup_nodup_toFinset_eq (hl.filter _) hq
    ext x
    simp only [List.mem_toFinset, List.mem_filter, decide_eq_true_eq]
    exact ⟨fun h => h.2, fun h => ⟨hsub x h, h⟩⟩
  exact hperm.length_eq

theorem restartList_length (nodes vs : List α) :
    (restartList nodes vs).length = nodes.length := by
  simp [restartList]

theorem restartList_nonneg (nodes vs : List α) (i : Nat) :
    0 ≤ (restartList nodes vs).getD i 0 := by
  by_cases hi : i < (restartList nodes vs).length
  · rw [List.getD_eq_getElem _ _ hi]
    unfold restartList at hi ⊢
    rw [List.getElem_map]
    split
    · positivity
    · exact le_refl 0
  · rw [List.getD_eq_default _ _ (le_of_not_lt hi)]

theorem restartList_sum (nodes vs : List α) (hnd : nodes.Nodup) (hvs : vs.Nodup)
    (hsub : ∀ x ∈ vs, x ∈ nodes) (hne : vs ≠ []) :
    (∑ i ∈ Finset.range nodes.length, (restartList nodes vs).getD i 0) = 1 := by
  rw [show nodes.length = (restartList nodes vs).length from
    (restartList_length nodes vs).symm, getD_sum_range]
  unfold restartList
  rw [sum_map_indicator, length_filter_mem nodes vs hnd hvs hsub]
  have hlen : (vs.length : ℚ) ≠ 0 := by
    simpa using fun h => hne (List.length_eq_zero.mp h)
  field_simp

/-! ### Bounded search and walk lemmas for graph distances -/

theorem firstSat_some_pred (p : Nat → Bool) :
    ∀ (fuel start k : Nat), firstSat p start fuel = some k → p k = true
  | 0, start, k => by simp [firstSat]
  | fuel + 1, start, k => by
    rw [firstSat]
    by_cases h : p start
    · rw [if_pos h]
      intro he
      obtain rfl := Option.some.inj he
      exact h
    · rw [if_neg h]
      exact firstSat_some_pred p fuel (start + 1) k

theorem firstSat_ge (p : Nat → Bool) :
    ∀ (fuel start k : Nat), firstSat p start fuel = some k → start ≤ k
  | 0, start, k => by simp [firstSat]
  | fuel + 1, start, k => by
    rw [firstSat]
    by_cases h : p start
    · rw [if_pos h]
      intro he
      obtain rfl := Option.some.inj he
      exact le_refl _
    · rw [if_neg h]
      intro he
      have := firstSat_ge p fuel (start + 1) k he
      omega

theorem firstSat_false (fuel start : Nat) :
    firstSat (fun _ => false) start fuel = none := by
  induction fuel generalizing start with
  | zero => rfl
  | succ fuel ih => rw [firstSat, if_neg (by simp)]; exact ih (start + 1)

theorem omin_none_right (a : Option Nat) : omin a none = a := by
  cases a <;> rfl

theorem omin_assoc (a b c : Option Nat) :
    omin (omin a b) c = omin a (omin b c) := by
  cases a <;> cases b <;> cases c <;> simp [omin, min_assoc]

theorem firstSat_or (p q : Nat → Bool) :
    ∀ (fuel start : Nat),
      firstSat (fun k => p k || q k) start fuel =
        omin (firstSat p start fuel) (firstSat q start fuel)
  | 0, start => rfl
  | fuel + 1, start => by
    rw [firstSat, firstSat, firstSat]
    by_cases hp : p start <;> by_cases hq : q start
    · rw [if_pos (by simp [hp]), if_pos hp, if_pos hq]
      simp [omin]
    · rw [if_pos (by simp [hp]), if_pos hp, if_neg hq]
      rcases hfq : firstSat q (start + 1) fuel with _ | m
      · simp [omin]
      · have hge := firstSat_ge q fuel (start + 1) m hfq
        simp [omin, min_eq_left (by omega : start ≤ m)]
    · rw [if_pos (by simp [hp, hq]), if_neg hp, if_pos hq]
      rcases hfp : firstSat p (start + 1) fuel with _ | m
      · simp [omin]
      · have hge := firstSat_ge p fuel (start + 1) m hfp
        simp [omin, min_eq_right (by omega : start ≤ m)]
    · rw [if_neg (by simp [hp, hq]), if_neg hp, if_neg hq]
      exact firstSat_or p q fuel (start + 1)

theorem reachN_nil (G : Graph α) : ∀ (k : Nat) (v : α), reachN G [] k v = false
  | 0, v => by simp [reachN]
  | k + 1, v => by
    rw [reachN, List.any_eq_false]
    intro u hu
    rw [reachN_nil G k u]
    simp

theorem any_or_distrib (l : List α) (f g : α → Bool) :
    l.any (fun u => f u || g u) = (l.any f || l.any g) := by
  rw [Bool.eq_iff_iff]
  simp only [List.any_eq_true, Bool.or_eq_true]
  constructor
  · rintro ⟨u, hu, h | h⟩
    · exact Or.inl ⟨u, hu, h⟩
    · exact Or.inr ⟨u, hu, h⟩
  · rintro (⟨u, hu, h⟩ | ⟨u, hu, h⟩)
    · exact ⟨u, hu, Or.inl h⟩
    · exact ⟨u, hu, Or.inr h⟩

theorem reachN_cons (G : Graph α) (s : α) (S : List α) :
    ∀ (k : Nat) (v : α),
      reachN G (s :: S) k v = (reachN G [s] k v || reachN G S k v)
  | 0, v => by
    simp [reachN, List.contains_cons]
  | k + 1, v => by
    conv_lhs => rw [reachN]
    rw [show (fun u => adjB G u v && reachN G (s :: S) k u) =
        (fun u => (adjB G u v && reachN G [s] k u) ||
          (adjB G u v && reachN G S k u)) from
      funext fun u => by rw [reachN_cons G s S k u, Bool.and_or_distrib_left]]
    rw [any_or_distrib]
    rfl

theorem reachN_peel (G : Graph α) :
    ∀ (k : Nat) (s v : α), s ∈ G.nodes → v ∈ G.nodes →
      reachN G [s] (k + 1) v = G.nodes.any (fun u => adjB G s u && reachN G [u] k v)
  | 0, s, v, hs, hv => by
    rw [Bool.eq_iff_iff]
    simp only [reachN, List.any_eq_true, Bool.and_eq_true, List.contains_cons,
      List.contains_nil, Bool.or_false, beq_iff_eq]
    constructor
    · rintro ⟨u, hu, hadj, rfl⟩
      exact ⟨v, hv, hadj, rfl⟩
    · rintro ⟨u, hu, hadj, rfl⟩
      exact ⟨s, hs, hadj, rfl⟩
  | k + 1, s, v, hs, hv => by
    rw [Bool.eq_iff_iff]
    conv_lhs => rw [reachN]
    simp only [List.any_eq_true, Bool.and_eq_true]
    constructor
    · rintro ⟨u, hu, hadj, hr⟩
      rw [reachN_peel G k s u hs hu] at hr
      simp only [List.any_eq_true, Bool.and_eq_true] at hr
      obtain ⟨w, hw, hsw, hwu⟩ := hr
      refine ⟨w, hw, hsw, ?_⟩
      rw [reachN]
      simp only [List.any_eq_true, Bool.and_eq_true]
      exact ⟨u, hu, hadj, hwu⟩
    · rintro ⟨w, hw, hsw, hr⟩
      rw [reachN] at hr
      simp only [List.any_eq_true, Bool.and_eq_true] at hr
      obtain ⟨u, hu, hadj, hwu⟩ := hr
      refine ⟨u, hu, hadj, ?_⟩
      rw [reachN_peel G k s u hs hu]
      simp only [List.any_eq_true, Bool.and_eq_true]
      exact ⟨w, hw, hsw, hwu⟩

theorem reachN_symm (G : Graph α) :
    ∀ (k : Nat) (s v : α), s ∈ G.nodes → v ∈ G.nodes →
      reachN G [s] k v = reachN G [v] k s
  | 0, s, v, hs, hv => by
    rw [Bool.eq_iff_iff]
    simp only [reachN, List.contains_cons, List.contains_nil, Bool.or_false,
      beq_iff_eq]
    exact ⟨fun h => h.symm, fun h => h.symm⟩
  | k + 1, s, v, hs, hv => by
    conv_lhs => rw [reachN]
    rw [reachN_peel G k v s hv hs, Bool.eq_iff_iff]
    simp only [List.any_eq_true, Bool.and_eq_true]
    constructor
    · rintro ⟨u, hu, hadj, hr⟩
      refine ⟨u, hu, by rwa [adjB_comm], ?_⟩
      rw [← reachN_symm G k s u hs hu]
      exact hr
    · rintro ⟨u, hu, hadj, hr⟩
      refine ⟨u, hu, by rwa [adjB_comm], ?_⟩
      rw [reachN_symm G k s u hs hu]
      exact hr

theorem distFrom_nil (G : Graph α) (v : α) : distFrom G [] v = none := by
  unfold distFrom
  rw [show (fun k => reachN G [] k v) = fun _ => false from
    funext fun k => reachN_nil G k v]
  exact firstSat_false _ _

theorem distFrom_cons (G : Graph α) (s : α) (S : List α) (v : α) :
    distFrom G (s :: S) v = omin (distFrom G [s] v) (distFrom G S v) := by
  unfold distFrom
  rw [show (fun k => reachN G (s :: S) k v) =
      (fun k => reachN G [s] k v || reachN G S k v) from
    funext fun k => reachN_cons G s S k v]
  exact firstSat_or _ _ _ _

theorem distFrom_symm (G : Graph α) (t d : α) (ht : t ∈ G.nodes)
    (hd : d ∈ G.nodes) : distFrom G [t] d = distFrom G [d] t := by
  unfold distFrom
  rw [show (fun k => reachN G [t] k d) = fun k => reachN G [d] k t from
    funext fun k => reachN_symm G k t d ht hd]

theorem minDistLoop_eq_distFrom (G : Graph α) (t : α) (ds : List α)
    (ht : t ∈ G.nodes) (hds : ∀ d ∈ ds, d ∈ G.nodes) :
    minDistLoop G t ds = distFrom G ds t := by
  unfold minDistLoop
  have main : ∀ (l : List α), (∀ d ∈ l, d ∈ G.nodes) → ∀ acc,
      l.foldl (fun acc d => omin acc (distFrom G [t] d)) acc =
        omin acc (distFrom G l t) := by
    intro l
    induction l with
    | nil =>
      intro _ acc
      rw [List.foldl_nil, distFrom_nil, omin_none_right]
    | cons d l ih =>
      intro hmem acc
      rw [List.foldl_cons, ih (fun x hx => hmem x (List.mem_cons_of_mem d hx)),
        omin_assoc, distFrom_symm G t d ht (hmem d (List.mem_cons_self d l)),
        ← distFrom_cons]
  rw [main ds hds none]
  cases distFrom G ds t <;> rfl

theorem filterMap_ext_mem (l : List α) (f g : α → Option Nat)
    (h : ∀ x ∈ l, f x = g x) : l.filterMap f = l.filterMap g := by
  induction l with
  | nil => rfl
  | cons x xs ih =>
    rw [List.filterMap_cons, List.filterMap_cons, h x (List.mem_cons_self x xs),
      ih fun y hy => h y (List.mem_cons_of_mem x hy)]

theorem mem_of_mem_filter_nodes (G : Graph α) (l : List α) (x : α)
    (hx : x ∈ l.filter (fun t => decide (t ∈ G.nodes))) : x ∈ G.nodes :=
  of_decide_eq_true (List.mem_filter.mp hx).2

/-- The filtered target list's minimum-distance values coincide with the
multi-source distance field looked up at each target. -/
theorem filterMap_minDist_eq (G : Graph α) (T D : List α) :
    (T.filter (fun t => decide (t ∈ G.nodes))).filterMap
        (fun t => minDistLoop G t (D.filter (fun d => decide (d ∈ G.nodes)))) =
      (T.filter (fun t => decide (t ∈ G.nodes))).filterMap
        (fun t => distFrom G (D.filter (fun d => decide (d ∈ G.nodes))) t) := by
  apply filterMap_ext_mem
  intro t ht
  exact minDistLoop_eq_distFrom G t _ (mem_of_mem_filter_nodes G T t ht)
    fun d hd => mem_of_mem_filter_nodes G D d hd

/-- The naive implementation equals the closed-form spec: the mean of the
multi-source distances over in-graph targets at finite distance, `none` when
no such target exists. -/
theorem calculate_shortest_path_eq_mean (G : Graph α) (T D : List α) :
    calculate_shortest_path G T D =
      (if (T.filter (fun t => decide (t ∈ G.nodes))).filterMap
          (fun t => distFrom G (D.filter (fun d => decide (d ∈ G.nodes))) t) = []
       then none
       else some ((((T.filter (fun t => decide (t ∈ G.nodes))).filterMap
            (fun t => distFrom G (D.filter (fun d => decide (d ∈ G.nodes))) t)).map
              (fun k => (k : ℚ))).sum /
          (((T.filter (fun t => decide (t ∈ G.nodes))).filterMap
            (fun t => distFrom G (D.filter (fun d => decide (d ∈ G.nodes))) t)).length : ℚ))) := by
  unfold calculate_shortest_path
  dsimp only
  by_cases hT : T.filter (fun t => decide (t ∈ G.nodes)) = []
  · rw [if_pos (Or.inl hT), hT]
    simp
  · by_cases hD : D.filter (fun d => decide (d ∈ G.nodes)) = []
    · rw [if_pos (Or.inr hD), hD,
        if_pos (List.filterMap_eq_nil_iff.mpr fun t ht => distFrom_nil G t)]
    · rw [if_neg (by tauto), filterMap_minDist_eq G T D]

/-- C8. `calculate_shortest_path` returns exactly the mean, over in-graph
targets at finite distance from the in-graph disease genes, of each such
target's distance to the nearest in-graph disease gene, and `none` (NaN)
precisely when no such target exists (in particular when either filtered set
is empty); on the path graph A-B-C-D-E with targets [A,B] and disease genes
[D,E] the result is 2.5. -/
theorem shortest_path_mean_of_min_distances (G : Graph α) (T D : List α) :
    (calculate_shortest_path G T D =
      (if (T.filter (fun t => decide (t ∈ G.nodes))).filterMap
          (fun t => distFrom G (D.filter (fun d => decide (d ∈ G.nodes))) t) = []
       then none
       else some ((((T.filter (fun t => decide (t ∈ G.nodes))).filterMap
            (fun t => distFrom G (D.filter (fun d => decide (d ∈ G.nodes))) t)).map
              (fun k => (k : ℚ))).sum /
          (((T.filter (fun t => decide (t ∈ G.nodes))).filterMap
            (fun t => distFrom G (D.filter (fun d => decide (d ∈ G.nodes))) t)).length : ℚ))))
    ∧ calculate_shortest_path pathFive [0, 1] [3, 4] = some (5 / 2) := by
  refine ⟨calculate_shortest_path_eq_mean G T D, ?_⟩
  rw [calculate_shortest_path_eq_mean]
  have htd : ([0, 1].filter (fun t => decide (t ∈ pathFive.nodes))).filterMap
      (fun t => distFrom pathFive ([3, 4].filter (fun d => decide (d ∈ pathFive.nodes))) t) =
      [3, 2] := by decide
  rw [htd, if_neg (by simp)]
  norm_num

/-- C9. The naive per-target implementation `calculate_shortest_path` and the
multi-source implementation `calculate_dc` agree on every graph and every
pair of input lists, including returning NaN (`none`) on exactly the same
inputs. -/
theorem shortest_path_naive_eq_dijkstra (G : Graph α) (T D : List α) :
    calculate_shortest_path G T D = calculate_dc G T D := by
  unfold calculate_shortest_path calculate_dc
  dsimp only
  by_cases hT : T.filter (fun t => decide (t ∈ G.nodes)) = [] <;>
    by_cases hD : D.filter (fun d => decide (d ∈ G.nodes)) = []
  · rw [if_pos (Or.inl hT), if_pos (Or.inl hD)]
  · rw [if_pos (Or.inl hT), if_pos (Or.inr hT)]
  · rw [if_pos (Or.inr hD), if_pos (Or.inl hD)]
  · have h1 : ¬(T.filter (fun t => decide (t ∈ G.nodes)) = [] ∨
        D.filter (fun d => decide (d ∈ G.nodes)) = []) := by tauto
    have h2 : ¬(D.filter (fun d => decide (d ∈ G.nodes)) = [] ∨
        T.filter (fun t => decide (t ∈ G.nodes)) = []) := by tauto
    rw [if_neg h1, if_neg h2, filterMap_minDist_eq G T D]

/-! ### Connectivity and the RWR output map -/

theorem adjQ_of_lt (G : Graph α) (i j : Nat) (hi : i < G.nodes.length)
    (hj : j < G.nodes.length) :
    adjQ G i j = if adjB G (G.nodes[i]) (G.nodes[j]) then 1 else 0 := by
  unfold adjQ
  rw [List.getElem?_eq_getElem hi, List.getElem?_eq_getElem hj]

/-- In a connected graph with at least two nodes, every node has an incident
edge (no column of the adjacency matrix is all-zero). -/
theorem connected_no_isolated (G : Graph α) (hconn : isConnected G)
    (hnd : G.nodes.Nodup) (h2 : 2 ≤ G.nodes.length) :
    ∀ j, j < G.nodes.length → ∃ i, i < G.nodes.length ∧ adjQ G i j ≠ 0 := by
  intro j hj
  have h0 : (0 : Nat) < G.nodes.length := by omega
  have h1 : (1 : Nat) < G.nodes.length := by omega
  have hvmem : G.nodes[j] ∈ G.nodes := List.getElem_mem hj
  obtain ⟨w, hw, hwv⟩ : ∃ w ∈ G.nodes, w ≠ G.nodes[j] := by
    by_cases hj0 : G.nodes[0] = G.nodes[j]
    · refine ⟨G.nodes[1], List.getElem_mem h1, fun h => ?_⟩
      have h01 : G.nodes[0] = G.nodes[1] := by rw [hj0, ← h]
      have := (List.Nodup.getElem_inj_iff hnd).mp h01
      omega
    · exact ⟨G.nodes[0], List.getElem_mem h0, hj0⟩
  have hd := hconn w hw (G.nodes[j]) hvmem
  unfold distFrom at hd
  rw [Option.isSome_iff_exists] at hd
  obtain ⟨k, hk⟩ := hd
  have hreach := firstSat_some_pred _ _ _ _ hk
  cases k with
  | zero =>
    exfalso
    apply hwv
    simp only [reachN, List.contains_cons, List.contains_nil, Bool.or_false,
      beq_iff_eq] at hreach
    exact hreach.symm
  | succ k =>
    rw [reachN] at hreach
    simp only [List.any_eq_true, Bool.and_eq_true] at hreach
    obtain ⟨u, hu, hadj, _⟩ := hreach
    obtain ⟨i, hi, hieq⟩ := List.getElem_of_mem hu
    refine ⟨i, hi, ?_⟩
    rw [adjQ_of_lt G i j hi hj, hieq, if_pos hadj]
    norm_num

/-- Core property of the node-score map `nodes.zip p` produced by the RWR
engines, for any column-stochastic nonnegative transition matrix. -/
theorem rwr_zip_props (nodes vs : List α) (W : Nat → Nat → ℚ) (a tol : ℚ)
    (it : Nat)
    (hW1 : ∀ j, j < nodes.length → (∑ i ∈ Finset.range nodes.length, W i j) = 1)
    (hW0 : ∀ i j, 0 ≤ W i j)
    (hnd : nodes.Nodup) (hvs : vs.Nodup) (hsub : ∀ x ∈ vs, x ∈ nodes)
    (hne : vs ≠ []) (ha0 : 0 ≤ a) (ha1 : a ≤ 1) :
    (nodes.zip (rwrLoop W nodes.length a tol (restartList nodes vs) it
      (restartList nodes vs))).map Prod.fst = nodes ∧
    ((nodes.zip (rwrLoop W nodes.length a tol (restartList nodes vs) it
      (restartList nodes vs))).map Prod.snd).sum = 1 ∧
    ∀ x ∈ nodes.zip (rwrLoop W nodes.length a tol (restartList nodes vs) it
      (restartList nodes vs)), 0 ≤ x.2 := by
  have hr1 := restartList_sum nodes vs hnd hvs hsub hne
  have hr0 := restartList_nonneg nodes vs
  have hrlen := restartList_length nodes vs
  obtain ⟨hplen, hpsum, hpnn⟩ :=
    rwrLoop_inv W nodes.length a tol (restartList nodes vs) hW1 hW0 hr1 hr0
      ha0 ha1 it (restartList nodes vs) hrlen hr1 hr0
  refine ⟨List.map_fst_zip nodes _ (le_of_eq hplen.symm), ?_, ?_⟩
  · rw [List.map_snd_zip nodes _ (le_of_eq hplen), ← getD_sum_range _, hplen]
    exact hpsum
  · intro x hx
    obtain ⟨_, hx2⟩ := List.of_mem_zip hx
    obtain ⟨i, hi, hieq⟩ := List.getElem_of_mem hx2
    have hnn := hpnn i
    rw [List.getD_eq_getElem _ _ hi, hieq] at hnn
    exact hnn

/-- C2 (amended). For every connected graph with at least two nodes (and
distinct node labels), every duplicate-free seed list that is nonempty after
filtering to graph membership, and every restart probability in `[0, 1]`:
both `run_rwr` and `run_expression_weighted_rwr` assign a score to every
graph node (in order), all scores are nonnegative, and the scores sum to
exactly 1 (hence within 1e-6). -/
theorem rwr_scores_sum_one_of_connected (G : Graph α) (seeds : List α)
    (expression : List (α × ℚ)) (log1p : ℚ → ℚ) (a tol : ℚ) (it : Nat)
    (hconn : isConnected G) (h2 : 2 ≤ G.nodes.length) (hnd : G.nodes.Nodup)
    (hs : seeds.Nodup)
    (hne : seeds.filter (fun s => decide (s ∈ G.nodes)) ≠ [])
    (ha0 : 0 ≤ a) (ha1 : a ≤ 1) :
    ((run_rwr G seeds a tol it).map Prod.fst = G.nodes ∧
      ((run_rwr G seeds a tol it).map Prod.snd).sum = 1 ∧
      ∀ x ∈ run_rwr G seeds a tol it, 0 ≤ x.2) ∧
    ((run_expression_weighted_rwr G seeds expression log1p a tol it).map
        Prod.fst = G.nodes ∧
      ((run_expression_weighted_rwr G seeds expression log1p a tol it).map
        Prod.snd).sum = 1 ∧
      ∀ x ∈ run_expression_weighted_rwr G seeds expression log1p a tol it,
        0 ≤ x.2) := by
  have hno := connected_no_isolated G hconn hnd h2
  have hvs_nd : (seeds.filter (fun s => decide (s ∈ G.nodes))).Nodup :=
    hs.filter _
  have hvs_sub : ∀ x ∈ seeds.filter (fun s => decide (s ∈ G.nodes)),
      x ∈ G.nodes := fun x hx => mem_of_mem_filter_nodes G seeds x hx
  have hn0 : ¬(G.nodes.length = 0) := by omega
  have hvl : ¬((seeds.filter (fun s => decide (s ∈ G.nodes))).length = 0) :=
    fun h => hne (List.length_eq_zero.mp h)
  constructor
  · have hzip := rwr_zip_props G.nodes
      (seeds.filter (fun s => decide (s ∈ G.nodes))) (transitionMatrix G)
      a tol it (fun j hj => transition_col_sum_one G j (hno j hj))
      (fun i j => transitionMatrix_nonneg G i j) hnd hvs_nd hvs_sub hne ha0 ha1
    unfold run_rwr
    dsimp only
    rw [if_neg hn0, if_neg hvl]
    exact hzip
  · have hzip := rwr_zip_props G.nodes
      (seeds.filter (fun s => decide (s ∈ G.nodes)))
      (create_expression_weighted_transition_matrix log1p (adjQ G) expression
        G.nodes)
      a tol it (fun j hj => wtransition_col_sum_one log1p G expression j (hno j hj))
      (fun i j => ewMatrix_nonneg log1p G expression i j) hnd hvs_nd hvs_sub
      hne ha0 ha1
    unfold run_expression_weighted_rwr
    dsimp only
    rw [if_neg hn0, if_neg hvl]
    exact hzip

/-- Witness for the amended C2 on the two-node one-edge graph with seed 0. -/
theorem rwr_scores_sum_one_witness :
    ((run_rwr pairGraph [0] (3 / 20) (1 / 1000000) 100).map Prod.snd).sum = 1 :=
  (rwr_scores_sum_one_of_connected pairGraph [0] [] id (3 / 20) (1 / 1000000)
    100 (by decide) (by decide) (by decide) (by decide) (by decide)
    (by norm_num) (by norm_num)).1.2.1

/-! ### Edge-free graphs make the RWR iteration collapse to `a * r` -/

theorem adjQ_of_no_edges (G : Graph α) (h : G.edges = []) (i j : Nat) :
    adjQ G i j = 0 := by
  rcases hgi : G.nodes[i]? with _ | u <;> rcases hgj : G.nodes[j]? with _ | v <;>
    simp [adjQ.eq_def, hgi, hgj, adjB, h]

theorem transitionMatrix_of_no_edges (G : Graph α) (h : G.edges = [])
    (i j : Nat) : transitionMatrix G i j = 0 := by
  unfold transitionMatrix
  rw [adjQ_of_no_edges G h, zero_div]

theorem rwrStep_zero_matrix (W : Nat → Nat → ℚ) (n : Nat) (a : ℚ)
    (r p : List ℚ) (hW : ∀ i j, W i j = 0) :
    rwrStep W n a r p = (List.range n).map (fun i => a * r.getD i 0) := by
  unfold rwrStep
  apply List.map_congr_left
  intro i _
  simp [hW]

theorem l1diffL_self (p : List ℚ) : l1diffL p p = 0 := by
  unfold l1diffL
  induction p with
  | nil => rfl
  | cons x xs ih => simpa using ih

theorem rwrLoop_zero_matrix (W : Nat → Nat → ℚ) (n : Nat) (a tol : ℚ)
    (r : List ℚ) (hW : ∀ i j, W i j = 0) (htol : 0 < tol) :
    ∀ fuel, 2 ≤ fuel → ∀ p, rwrLoop W n a tol r fuel p =
      (List.range n).map (fun i => a * r.getD i 0) := by
  intro fuel hfuel p
  obtain ⟨f, rfl⟩ : ∃ f, fuel = f + 2 := ⟨fuel - 2, by omega⟩
  rw [show f + 2 = (f + 1) + 1 from rfl, rwrLoop,
    rwrStep_zero_matrix W n a r p hW]
  split
  · rfl
  · rw [rwrLoop, rwrStep_zero_matrix W n a r _ hW, l1diffL_self, if_pos htol]

/-- Counterexample to C2 as literally stated: the singleton graph is
connected and the seed survives filtering, yet `run_rwr` returns scores
summing to 0.15, which is not within 1e-6 of 1. -/
theorem rwr_connected_sum_can_miss_one :
    isConnected singletonGraph ∧
    ([0].filter (fun s => decide (s ∈ singletonGraph.nodes))) ≠ [] ∧
    ((run_rwr singletonGraph [0] (3 / 20) (1 / 1000000) 100).map Prod.snd).sum
      = 3 / 20 ∧
    ¬(|((run_rwr singletonGraph [0] (3 / 20) (1 / 1000000) 100).map
        Prod.snd).sum - 1| ≤ 1 / 1000000) := by
  have hrun : run_rwr singletonGraph [0] (3 / 20) (1 / 1000000) 100 =
      [(0, 3 / 20)] := by
    unfold run_rwr
    dsimp only
    rw [if_neg (by decide), if_neg (by decide),
      rwrLoop_zero_matrix (transitionMatrix singletonGraph)
        singletonGraph.nodes.length (3 / 20) (1 / 1000000) _
        (transitionMatrix_of_no_edges singletonGraph rfl) (by norm_num)
        100 (by omega) _]
    norm_num [singletonGraph, restartList, List.filter, List.range_succ,
      List.getD]
  refine ⟨by decide, by decide, ?_, ?_⟩
  · rw [hrun]
    norm_num
  · rw [hrun]
    norm_num
    rw [abs_of_nonneg (by norm_num : (0 : ℚ) ≤ 17 / 20)]
    norm_num

/-! ### Degenerate-input handling (C4) -/

/-- C4 (amended). `validate_network` raises exactly when the graph has no
nodes (a nonempty graph with zero edges passes validation and is processed
by `run_rwr` without error), and a seed set that is empty after filtering to
graph membership yields the all-zero score map over every graph node rather
than an error. -/
theorem degenerate_input_handling (G : Graph α) (seeds : List α) (a tol : ℚ)
    (it : Nat) :
    ((∃ msg, validate_network G = Except.error msg) ↔ G.nodes = []) ∧
    (seeds.filter (fun s => decide (s ∈ G.nodes)) = [] →
      run_rwr G seeds a tol it = G.nodes.map (fun v => (v, 0))) := by
  constructor
  · unfold validate_network
    constructor
    · rintro ⟨msg, hmsg⟩
      by_cases h : G.nodes.length = 0
      · exact List.length_eq_zero.mp h
      · rw [if_neg h] at hmsg
        cases hmsg
    · intro h
      rw [if_pos (by rw [h]; rfl)]
      exact ⟨_, rfl⟩
  · intro hempty
    unfold run_rwr
    dsimp only
    by_cases hn : G.nodes.length = 0
    · rw [if_pos hn, List.length_eq_zero.mp hn]
      rfl
    · rw [if_neg hn, if_pos (by rw [hempty]; rfl)]

/-- Witness for the amended C4: a seed absent from the graph produces the
all-zero map. -/
theorem degenerate_input_handling_witness :
    run_rwr pairGraph [5] (3 / 20) (1 / 1000000) 100 =
      pairGraph.nodes.map (fun v => (v, 0)) :=
  (degenerate_input_handling pairGraph [5] (3 / 20) (1 / 1000000) 100).2
    (by decide)

/-- Counterexample to C4 as stated: a two-node graph with zero edges is
degenerate, yet `validate_network` accepts it and `run_rwr` returns a score
map instead of signalling an error. -/
theorem no_edge_graph_not_rejected :
    edgelessPair.edges = [] ∧
    validate_network edgelessPair = Except.ok true ∧
    run_rwr edgelessPair [0] (3 / 20) (1 / 1000000) 100 =
      [(0, 3 / 20), (1, 0)] := by
  refine ⟨rfl, rfl, ?_⟩
  unfold run_rwr
  dsimp only
  rw [if_neg (by decide), if_neg (by decide),
    rwrLoop_zero_matrix (transitionMatrix edgelessPair)
      edgelessPair.nodes.length (3 / 20) (1 / 1000000) _
      (transitionMatrix_of_no_edges edgelessPair rfl) (by norm_num)
      100 (by omega) _]
  norm_num [edgelessPair, restartList, List.filter, List.range_succ,
    List.getD]

/-! ### Empirical p-values (C7) -/

/-- C7 (amended). For every observed value and nonempty null distribution,
`calculate_empirical_p_value` with the `(r+1)/(n+1)` form returns a value in
(0, 1] for the one-tailed options and a value in (0, 2] — never 0, but
possibly above 1 — for the two-tailed option; an empty null distribution
returns NaN for every tail option. -/
theorem empirical_p_value_bounds (observed : ℚ) (null_distribution : List ℚ) :
    (null_distribution ≠ [] →
      (calculate_empirical_p_value observed null_distribution
        "one_greater").inRange 0 1 ∧
      (calculate_empirical_p_value observed null_distribution
        "one_less").inRange 0 1 ∧
      (calculate_empirical_p_value observed null_distribution
        "two").inRange 0 2) ∧
    (∀ tail, calculate_empirical_p_value observed [] tail = PValue.nan) := by
  constructor
  · intro hne
    have hn0 : ¬(null_distribution.length = 0) :=
      fun h => hne (List.length_eq_zero.mp h)
    have hge : ∀ (r : Nat), r ≤ null_distribution.length →
        0 < ((r : ℚ) + 1) / ((null_distribution.length : ℚ) + 1) ∧
        ((r : ℚ) + 1) / ((null_distribution.length : ℚ) + 1) ≤ 1 := by
      intro r hr
      have hcast : (r : ℚ) ≤ (null_distribution.length : ℚ) :=
        Nat.cast_le.mpr hr
      constructor
      · apply div_pos <;> positivity
      · rw [div_le_one (by positivity)]
        linarith
    have hrg := hge _ (List.length_filter_le
      (fun x => decide (observed ≤ x)) null_distribution)
    have hrl := hge _ (List.length_filter_le
      (fun x => decide (x ≤ observed)) null_distribution)
    refine ⟨?_, ?_, ?_⟩
    · unfold calculate_empirical_p_value
      rw [if_neg hn0, if_pos rfl]
      exact hrg
    · unfold calculate_empirical_p_value
      rw [if_neg hn0, if_neg (by decide), if_pos rfl]
      exact hrl
    · unfold calculate_empirical_p_value
      rw [if_neg hn0, if_neg (by decide), if_neg (by decide), if_pos rfl]
      dsimp only [PValue.inRange]
      constructor
      · have := hrl.1
        have := hrg.1
        rcases min_choice (((List.filter (fun x => decide (x ≤ observed))
            null_distribution).length : ℚ) + 1 /
            ((null_distribution.length : ℚ) + 1)) _ with h | h
        all_goals positivity
      · have hmin : min
            (((List.filter (fun x => decide (x ≤ observed))
              null_distribution).length + 1 : ℚ) /
              ((null_distribution.length : ℚ) + 1))
            (((List.filter (fun x => decide (observed ≤ x))
              null_distribution).length + 1 : ℚ) /
              ((null_distribution.length : ℚ) + 1)) ≤ 1 :=
          le_trans (min_le_right _ _) hrg.2
        linarith
  · intro tail
    rfl

/-- Witness for the amended C7 at the spec's concrete scenario
(observed 10, null [1..5], tail "one_greater"). -/
theorem empirical_p_value_bounds_witness :
    (calculate_empirical_p_value 10 [1, 2, 3, 4, 5] "one_greater").inRange 0 1 :=
  ((empirical_p_value_bounds 10 [1, 2, 3, 4, 5]).1 (by decide)).1

/-- Counterexample to C7 as stated: with the null distribution [5] and
observed value 5, the two-tailed empirical p-value is exactly 2, which lies
outside (0, 1]. -/
theorem empirical_p_two_tailed_exceeds_one :
    calculate_empirical_p_value 5 [5] "two" = PValue.val 2 ∧ ¬((2 : ℚ) ≤ 1) := by
  constructor
  · unfold calculate_empirical_p_value
    rw [if_neg (by decide), if_neg (by decide), if_neg (by decide),
      if_pos rfl]
    norm_num [List.filter]
  · norm_num

/-! ### Degree-matched samplers (C5, C6) -/

theorem pick_mem (l : List α) (m : Nat) (x : α) (h : pick l m = some x) :
    x ∈ l :=
  List.getElem?_mem h

theorem gdmrCandidates_mem (G : Graph α) (targets nodes rs : List α)
    (deg : Nat) (x : α) (hx : x ∈ gdmrCandidates G targets nodes rs deg) :
    x ∉ targets ∧ x ∉ rs := by
  unfold gdmrCandidates at hx
  dsimp only at hx
  split at hx
  · obtain ⟨-, hcond⟩ := List.mem_filter.mp hx
    simp only [Bool.and_eq_true, decide_eq_true_eq] at hcond
    exact ⟨hcond.1, hcond.2⟩
  · obtain ⟨-, hcond⟩ := List.mem_filter.mp hx
    simp only [Bool.and_eq_true, decide_eq_true_eq] at hcond
    exact ⟨hcond.1.2, hcond.2⟩

theorem gdmrLoop_props (G : Graph α) (targets nodes : List α)
    (oracle : Nat → Nat) :
    ∀ (degs : List Nat) (rs : List α) (ctr : Nat),
      rs.Nodup → (∀ x ∈ rs, x ∉ targets) →
      (gdmrLoop G targets nodes oracle degs rs ctr).Nodup ∧
      (∀ x ∈ gdmrLoop G targets nodes oracle degs rs ctr, x ∉ targets) ∧
      (gdmrLoop G targets nodes oracle degs rs ctr).length ≤
        rs.length + degs.length
  | [], rs, ctr, h1, h2 => ⟨h1, h2, by simp [gdmrLoop]⟩
  | deg :: rest, rs, ctr, h1, h2 => by
    rw [gdmrLoop]
    rcases hpick : pick (gdmrCandidates G targets nodes rs deg) (oracle ctr)
      with _ | x
    · have h := gdmrLoop_props G targets nodes oracle rest rs (ctr + 1) h1 h2
      refine ⟨h.1, h.2.1, ?_⟩
      have := h.2.2
      simp only [List.length_cons]
      omega
    · have hx := gdmrCandidates_mem G targets nodes rs deg x
        (pick_mem _ _ _ hpick)
      have h1x : (rs ++ [x]).Nodup := by
        rw [List.nodup_append]
        exact ⟨h1, List.nodup_singleton x,
          fun y hy hyx => hx.2 (by rwa [List.mem_singleton.mp hyx] at hy)⟩
      have h2x : ∀ y ∈ rs ++ [x], y ∉ targets := by
        intro y hy
        rcases List.mem_append.mp hy with hy | hy
        · exact h2 y hy
        · rw [List.mem_singleton.mp hy]
          exact hx.1
      have h := gdmrLoop_props G targets nodes oracle rest (rs ++ [x])
        (ctr + 1) h1x h2x
      refine ⟨h.1, h.2.1, ?_⟩
      have hlen := h.2.2
      rw [List.length_append, List.length_singleton] at hlen
      simp only [List.length_cons]
      omega

/-- C5 (amended). For every graph, target list, sample size and random draw,
the sampler `get_degree_matched_random` returns a duplicate-free node list
disjoint from the target list, of size at most the requested sample size
(the binned `NullModel` sampler does not satisfy the target-exclusion
property; see the counterexample). -/
theorem degree_matched_random_no_dups_no_targets (G : Graph α)
    (targets : List α) (n_sample : Nat) (oracle : Nat → Nat) :
    (get_degree_matched_random G targets n_sample oracle).Nodup ∧
    (∀ x ∈ get_degree_matched_random G targets n_sample oracle,
      x ∉ targets) ∧
    (get_degree_matched_random G targets n_sample oracle).length ≤ n_sample := by
  unfold get_degree_matched_random
  dsimp only
  have h := gdmrLoop_props G targets G.nodes oracle
    (((targets.filter (fun t => decide (t ∈ G.nodes))).map (degN G)).take
      n_sample) [] 0 List.nodup_nil (by simp)
  refine ⟨h.1, h.2.1, le_trans h.2.2 ?_⟩
  simp only [List.length_nil, Nat.zero_add]
  exact le_trans (List.length_take_le _ _) (le_refl _)

/-- Counterexample to C5 as stated: in the two-node graph both nodes share a
degree bin, so the binned `NullModel` sampler can return the target itself
as its own random control. -/
theorem null_model_can_return_target :
    get_degree_matched_random_set pairGraph 100 [0] (fun _ => 0) 5 =
      some [0] ∧ (0 : Nat) ∈ [0] := by
  exact ⟨by decide, by decide⟩

theorem retryChoice_stuck (oracle : Nat → Nat) :
    ∀ (fuel ctr : Nat), retryChoice [0] [0] oracle fuel ctr = none
  | 0, ctr => rfl
  | fuel + 1, ctr => by
    rw [retryChoice]
    have hp : pick [0] (oracle ctr) = some 0 := by
      simp [pick, Nat.mod_one]
    rw [hp]
    dsimp only
    rw [if_pos (show (0 : Nat) ∈ [0] by simp)]
    exact retryChoice_stuck oracle fuel (ctr + 1)

/-- C6. The duplicate-avoidance retry loop of
`NullModel.get_degree_matched_random_set` fails to terminate when a target's
whole degree bin is already in the partially built random set: on the
single-node graph with the duplicated target list `[0, 0]`, no amount of
fuel and no random draw sequence ever produces a result (the Python `while`
loop spins forever). -/
theorem null_model_retry_loop_diverges (oracle : Nat → Nat) (fuel : Nat) :
    get_degree_matched_random_set singletonGraph 100 [0, 0] oracle fuel =
      none := by
  unfold get_degree_matched_random_set
  have hbins : binsMap singletonGraph 100 0 = some [0] := by decide
  rw [nmLoop]
  simp only [hbins]
  cases fuel with
  | zero => rfl
  | succ f =>
    have h1 : retryChoice [0] ([] : List Nat) oracle (f + 1) 0 =
        some (0, 1) := by
      rw [retryChoice]
      have hp : pick [0] (oracle 0) = some 0 := by simp [pick, Nat.mod_one]
      rw [hp]
      dsimp only
      rw [if_neg (show ¬((0 : Nat) ∈ ([] : List Nat)) by simp)]
    simp only [h1]
    rw [List.nil_append, nmLoop]
    simp only [hbins, retryChoice_stuck oracle (f + 1) 1]

end NetworkTox
